import Mathlib

/-!
Verification of the WebSemantica review-processing pipeline.

This file gives a shallow embedding, in Lean 4, of the parts of the
repository that the specification talks about:

* utils/regex_extractor.py  : text cleaning (clean_text and its internal
  regex pipeline) and the model-confidence computation;
* utils/semantic_search.py  : the BM25 index (fit, get_scores, get_top_n)
  and the parameter tuning routine;
* utils/event_extractor.py  : trigger-based event extraction and the
  lexicon sentiment rule;
* utils/relationship_extractor.py : pattern-based purchase relations;
* utils/ner_extractor.py    : entity post-processing and analyze_review;
* utils/main_processor.py   : the per-review pipeline and the CSV batch
  loop.

Modelling conventions.  Python strings are embedded as List Char (the
regex character classes are modelled on ASCII, which covers every string
the claims exercise); Python floats are embedded as rationals, with the
transcendental math.log passed in as an explicit parameter
log : Rat -> Rat, so that every definition stays executable; a Python
function that may raise is embedded with an Except result, and a
try/except block becomes a match on that result.  External NLP backends
(spaCy, NLTK) are not part of the repository; where a repository function
calls one, the backend is a parameter of the embedding.
-/

namespace WebSem

/-! ## Character classes of the cleaning regexes (regex_extractor.py)

Python re classes, restricted to ASCII: backslash-w is alphanumeric or
underscore, backslash-s is the six whitespace characters. -/

/-- ASCII model of the regex word class used in the cleaning patterns. -/
def isWordChar (c : Char) : Bool :=
  c.isAlphanum || c = '_'

/-- ASCII model of the regex whitespace class. -/
def isSpaceChar (c : Char) : Bool :=
  c = ' ' || c = '\t' || c = '\n' || c = '\r' || c = '\x0b' || c = '\x0c'

/-- Characters allowed by the URL host part of the URL pattern in
_clean_text_internal (class of dash, word chars and dot). -/
def isHostChar (c : Char) : Bool :=
  c = '-' || isWordChar c || c = '.'

/-- Characters of the optional port part of the URL pattern (colon and
digits). -/
def isPortChar (c : Char) : Bool :=
  c = ':' || c.isDigit

/-- Characters of the path part of the URL pattern (word chars, slash,
underscore, dot). -/
def isPathChar (c : Char) : Bool :=
  isWordChar c || c = '/' || c = '_' || c = '.'

/-- Characters of the query part of the URL pattern. -/
def isQueryChar (c : Char) : Bool :=
  isWordChar c || c = '&' || c = '=' || c = '%' || c = '.'

/-- Characters of the fragment part of the URL pattern. -/
def isFragChar (c : Char) : Bool :=
  isWordChar c || c = '.'

/-- Greedy match of an optional group made of a literal character
followed by a star over a character class, as in the query and fragment
groups of the URL pattern: if the literal is at the head, consume it and
the maximal class run, otherwise consume nothing. -/
def dropOptGroup (c : Char) (p : Char → Bool) (l : List Char) : List Char :=
  match l with
  | d :: rest => if d = c then rest.dropWhile p else l
  | [] => l

/-- Greedy match of the URL pattern after the scheme, that is after
http:// or https:// : one or more host characters, an optional run of
port characters, and an optional path with optional query and fragment.
Returns the rest of the input after the match.  Every character class at
a group boundary is disjoint from the class before it, so the greedy
maximal munch below agrees with Python backtracking semantics. -/
def matchAfterScheme (l : List Char) : Option (List Char) :=
  match l with
  | [] => none
  | c :: rest =>
    if isHostChar c then
      let l2 := (rest.dropWhile isHostChar).dropWhile isPortChar
      match l2 with
      | '/' :: r =>
        some (dropOptGroup '#' isFragChar
          (dropOptGroup '?' isQueryChar (r.dropWhile isPathChar)))
      | _ => some l2
    else none

/-- Match of the whole URL pattern of _clean_text_internal at the head of
the input; the optional s of https? is greedy, which agrees with trying
the longer scheme literal first. -/
def matchURL (l : List Char) : Option (List Char) :=
  if "https://".toList.isPrefixOf l then matchAfterScheme (l.drop 8)
  else if "http://".toList.isPrefixOf l then matchAfterScheme (l.drop 7)
  else none

/-- First substitution of _clean_text_internal: every match of the URL
pattern is replaced by the empty string, scanning left to right as
re.sub does.  Termination: a URL match consumes at least the scheme, so
the rest of a match is strictly shorter than the input; that fact is
proved inline below. -/
def removeURLs (l : List Char) : List Char :=
  match hm : matchURL l with
  | some r => removeURLs r
  | none =>
    match l with
    | [] => []
    | c :: rest => c :: removeURLs rest
termination_by l.length
decreasing_by
  · have hsuf : ∀ {x y : List Char}, matchAfterScheme x = some y → y <:+ x := by
      intro x y h
      cases x with
      | nil => simp [matchAfterScheme] at h
      | cons c rest =>
        simp only [matchAfterScheme] at h
        split at h
        · have h2 : (rest.dropWhile isHostChar).dropWhile isPortChar <:+ rest :=
            (List.dropWhile_suffix _).trans (List.dropWhile_suffix _)
          have hgrp : ∀ (d : Char) (p : Char → Bool) (z : List Char),
              dropOptGroup d p z <:+ z := by
            intro d p z
            unfold dropOptGroup
            split
            · rename_i e zrest
              split
              · exact (List.dropWhile_suffix _).trans (List.suffix_cons e zrest)
              · exact List.suffix_refl _
            · exact List.suffix_refl _
          have htail : ∀ z : List Char, z <:+ rest → z <:+ c :: rest := by
            intro z hz
            exact hz.trans (List.suffix_cons c rest)
          split at h
          · rename_i r0 heq
            have hr0 : r0 <:+ rest := by
              have hcons : '/' :: r0 <:+ rest := heq ▸ h2
              exact (List.suffix_cons '/' r0).trans hcons
            cases h
            refine htail _ ?_
            exact ((hgrp _ _ _).trans
              ((hgrp _ _ _).trans ((List.dropWhile_suffix _).trans hr0)))
          · cases h
            exact htail _ h2
        · cases h
    unfold matchURL at hm
    split at hm
    · rename_i hpre
      have hlen : 8 ≤ l.length := by
        have := (List.isPrefixOf_iff_prefix.mp hpre).length_le
        simpa using this
      have := (hsuf hm).length_le
      have hdrop : (l.drop 8).length = l.length - 8 := by simp
      omega
    · split at hm
      · rename_i hpre
        have hlen : 7 ≤ l.length := by
          have := (List.isPrefixOf_iff_prefix.mp hpre).length_le
          simpa using this
        have := (hsuf hm).length_le
        have hdrop : (l.drop 7).length = l.length - 7 := by simp
        omega
      · cases hm
  · simp

/-- Second substitution of _clean_text_internal: a mention or hashtag,
an at-sign or hash followed by one or more word characters, is removed;
the word run is consumed greedily. -/
def removeMentions (l : List Char) : List Char :=
  match l with
  | [] => []
  | c :: rest =>
    if (c = '@' || c = '#') &&
        (match rest with
         | d :: _ => isWordChar d
         | [] => false) then
      removeMentions (rest.dropWhile isWordChar)
    else
      c :: removeMentions rest
termination_by l.length
decreasing_by
  · have := (List.dropWhile_suffix (l := rest) isWordChar).length_le
    simp only [List.length_cons]
    omega
  · simp

/-- Third substitution of _clean_text_internal: every maximal run of
whitespace characters collapses to a single space. -/
def collapseSpaces (l : List Char) : List Char :=
  match l with
  | [] => []
  | c :: rest =>
    if isSpaceChar c then
      ' ' :: collapseSpaces (rest.dropWhile isSpaceChar)
    else
      c :: collapseSpaces rest
termination_by l.length
decreasing_by
  · have := (List.dropWhile_suffix (l := rest) isSpaceChar).length_le
    simp only [List.length_cons]
    omega
  · simp

/-- The characters kept by the fourth substitution of
_clean_text_internal: word characters, whitespace, and the safe
punctuation set. -/
def keepChar (c : Char) : Bool :=
  isWordChar c || isSpaceChar c ||
    c = '.' || c = ',' || c = '!' || c = '?' || c = ';' || c = ':' ||
    c = '(' || c = ')' || c = '-' || c = '\'' || c = '"' || c = '$' || c = '%'

/-- Fourth substitution of _clean_text_internal: characters outside the
safe set are dropped. -/
def removeUnsafe (l : List Char) : List Char :=
  l.filter keepChar

/-- Python str.strip: leading and trailing whitespace is removed. -/
def stripChars (l : List Char) : List Char :=
  ((l.dropWhile isSpaceChar).reverse.dropWhile isSpaceChar).reverse

/-- The internal cleaning pipeline _clean_text_internal
(regex_extractor.py lines 151 to 165): URL removal, mention and hashtag
removal, whitespace normalization, unsafe character removal, strip. -/
def cleanTextInternal (l : List Char) : List Char :=
  stripChars (removeUnsafe (collapseSpaces (removeMentions (removeURLs l))))

/-- The public clean_text wrapper (regex_extractor.py lines 385 to 398),
parametric in the internal cleaning step so that the try/except can be
stated for an arbitrary fallible internal computation.  The input None
or a non-string value is modelled by Option.none, a string by some;
both the cached and the uncached branch call the same internal function.
The wrapper itself never produces an error value. -/
def cleanTextWith (internal : List Char → Except String (List Char)) :
    Option (List Char) → Except String (List Char)
  | none => Except.ok []
  | some s =>
    if s.isEmpty then Except.ok []
    else
      match internal s with
      | Except.ok r => Except.ok r
      | Except.error _ => Except.ok s

/-- The actual public clean_text: the wrapper applied to the actual
internal cleaning pipeline, which in the embedding is total. -/
def cleanTextPy (v : Option (List Char)) : Except String (List Char) :=
  cleanTextWith (fun s => Except.ok (cleanTextInternal s)) v

/-- The value clean_text computes on a plain string input (the path the
batch processor takes; str inputs are never None there). -/
def cleanTextRun (text : List Char) : List Char :=
  if text.isEmpty then [] else cleanTextInternal text

/-! ## BM25 (semantic_search.py)

Corpus documents are lists of tokens; a token is a Lean String.  All
floating point arithmetic of the Python code is embedded as rational
arithmetic, and math.log is an explicit parameter of every definition
that needs it. -/

/-- Mean document length computed by BM25.fit: the sum of the document
lengths over the document count, and zero for an empty corpus. -/
def avgdlQ (corpus : List (List String)) : ℚ :=
  if corpus.length = 0 then 0
  else ((corpus.map List.length).sum : ℚ) / (corpus.length : ℚ)

/-- Document frequency of a token, as computed by BM25.fit: the number
of documents whose token set contains the token. -/
def dfQ (corpus : List (List String)) (t : String) : Nat :=
  (corpus.filter (fun d => d.contains t)).length

/-- The idf dictionary built by BM25.fit, read through dict.get with
default 0 as get_scores does: a token of the vocabulary (one with
positive document frequency) gets log of
(N - df + 0.5) / (df + 0.5), any other token gets 0. -/
def idfQ (log : ℚ → ℚ) (corpus : List (List String)) (t : String) : ℚ :=
  if dfQ corpus t = 0 then 0
  else log (((corpus.length : ℚ) - (dfQ corpus t : ℚ) + 1/2) /
    ((dfQ corpus t : ℚ) + 1/2))

/-- Term frequency of a token in a document, as stored by the per
document Counter of BM25.fit. -/
def tfQ (d : List String) (t : String) : Nat :=
  d.count t

/-- Contribution of a single query token to the BM25 score of document
d (the body of the query loop of BM25.get_scores, lines 94 to 106):
zero when the token is not in the document Counter, otherwise
idf times tf (k1 + 1) over tf + k1 (1 - b + b len(d) / avgdl). -/
def scoreTermQ (log : ℚ → ℚ) (k1 b : ℚ) (corpus : List (List String))
    (d : List String) (t : String) : ℚ :=
  if tfQ d t = 0 then 0
  else
    idfQ log corpus t *
      (((tfQ d t : ℚ) * (k1 + 1)) /
        ((tfQ d t : ℚ) + k1 * (1 - b + b * ((d.length : ℚ) / avgdlQ corpus))))

/-- BM25 score of a query against one document: the sum of the term
contributions over the query token list. -/
def scoreDocQ (log : ℚ → ℚ) (k1 b : ℚ) (corpus : List (List String))
    (d : List String) (query : List String) : ℚ :=
  (query.map (scoreTermQ log k1 b corpus d)).sum

/-- BM25.get_scores: the score array, one entry per corpus document in
corpus order. -/
def getScoresQ (log : ℚ → ℚ) (k1 b : ℚ) (corpus : List (List String))
    (query : List String) : List ℚ :=
  corpus.map (fun d => scoreDocQ log k1 b corpus d query)

/-- The per term idf written in the specification: log of
(N - df(t) + 0.5) / (df(t) + 0.5), with no vocabulary guard. -/
def specIdfQ (log : ℚ → ℚ) (corpus : List (List String)) (t : String) : ℚ :=
  log (((corpus.length : ℚ) - (dfQ corpus t : ℚ) + 1/2) /
    ((dfQ corpus t : ℚ) + 1/2))

/-- The reference scoring formula as the specification states it: for
each query token present in the document the contribution
idf(t) tf (k1+1) / (tf + k1 (1 - b + b len(d) / avgdl)), and zero for
tokens absent from the document. -/
def specScoreDocQ (log : ℚ → ℚ) (k1 b : ℚ) (corpus : List (List String))
    (d : List String) (query : List String) : ℚ :=
  (query.map (fun t =>
    if tfQ d t = 0 then 0
    else
      specIdfQ log corpus t *
        (((tfQ d t : ℚ) * (k1 + 1)) /
          ((tfQ d t : ℚ) + k1 * (1 - b + b * ((d.length : ℚ) / avgdlQ corpus)))))).sum

/-- The reference score array of the specification. -/
def specScoresQ (log : ℚ → ℚ) (k1 b : ℚ) (corpus : List (List String))
    (query : List String) : List ℚ :=
  corpus.map (fun d => specScoreDocQ log k1 b corpus d query)

/-- The isolated per term BM25 factor of get_scores lines 103 to 106,
as a function of an already fixed idf value, a term frequency, the
parameters, the document length and the mean document length. -/
def bm25TermScore (idf tf k1 b dl avgdl : ℚ) : ℚ :=
  idf * ((tf * (k1 + 1)) / (tf + k1 * (1 - b + b * (dl / avgdl))))

/-- The comparison by which np.argsort orders the index array in
BM25.get_top_n: ascending score, and (argsort being stable here, numpy
falls back to a stable insertion sort on small inputs) equal scores
keep ascending index order. -/
def argsortLe (scores : List ℚ) (i j : Nat) : Prop :=
  scores.getD i 0 < scores.getD j 0 ∨
    (scores.getD i 0 = scores.getD j 0 ∧ i ≤ j)

instance (scores : List ℚ) : DecidableRel (argsortLe scores) := fun i j => by
  unfold argsortLe
  infer_instance

/-- Stable argsort of the score array, modelled with insertion sort
(what numpy itself runs on arrays of this size): the list of document
indices sorted by ascending score, ties in original order. -/
def argsortIdx (scores : List ℚ) : List Nat :=
  (List.range scores.length).insertionSort (argsortLe scores)

/-- BM25.get_top_n (lines 112 to 126): reverse the ascending argsort,
take the first n indices, and keep the pairs of index and score whose
score is strictly positive. -/
def getTopNQ (scores : List ℚ) (n : Nat) : List (Nat × ℚ) :=
  ((argsortIdx scores).reverse.take n).filterMap (fun i =>
    if 0 < scores.getD i 0 then some (i, scores.getD i 0) else none)

/-- A sign faithful stand in for the natural logarithm, used to
instantiate the log parameter in concrete runs: ln x is positive
exactly for x above 1 and negative exactly for x below 1. -/
def signLog (q : ℚ) : ℚ :=
  if 1 < q then 1 else if q < 1 then -1 else 0

/-! ## Parameter tuning (semantic_search.py, tune_parameters) -/

/-- np.arange over the rationals: values start + k step for
k below the ceiling of (stop - start) / step. -/
def arangeQ (start stop step : ℚ) : List ℚ :=
  (List.range (((stop - start) / step).ceil.toNat)).map
    (fun k => start + step * (k : ℚ))

/-- The simple precision of tune_parameters line 373: the number of
distinct retrieved documents that are also relevant, over the number of
retrieved documents, and zero when nothing was retrieved. -/
def precisionQ (retrieved relevant : List Nat) : ℚ :=
  if retrieved = [] then 0
  else ((retrieved.dedup.filter (fun i => relevant.contains i)).length : ℚ) /
    (retrieved.length : ℚ)

/-- Average precision of one grid point of tune_parameters: the queries
(already tokenized) are zipped with the relevance judgment lists, each
pair is scored with a BM25 model fitted with the trial parameters, and
the precision sum is divided by the number of queries. -/
def gridAvgQ (log : ℚ → ℚ) (k1 b : ℚ) (corpus : List (List String))
    (queries : List (List String)) (rels : List (List Nat)) : ℚ :=
  let total := ((queries.zip rels).map (fun qr =>
    precisionQ
      ((getTopNQ (getScoresQ log k1 b corpus qr.1) qr.2.length).map Prod.fst)
      qr.2)).sum
  if queries = [] then 0 else total / (queries.length : ℚ)

/-- SemanticSearch.tune_parameters (lines 338 to 389): a grid search
over k1 in arange(k1 range, 0.2) and b in arange(b range, 0.1), keeping
the parameters of the best average precision; the initial best score is
0 and the initial best parameters are the current ones.  The routine
validates nothing, zip silently truncates the longer of the two input
lists, the index is refitted with the returned parameters, and no
exception is raised anywhere; the Except result makes that absence of a
raised error visible in the type. -/
def tuneParametersQ (log : ℚ → ℚ) (k1 b : ℚ) (corpus : List (List String))
    (queries : List (List String)) (rels : List (List Nat))
    (k1Range bRange : ℚ × ℚ) : Except String (ℚ × ℚ) :=
  let k1s := arangeQ k1Range.1 k1Range.2 (1/5)
  let bs := arangeQ bRange.1 bRange.2 (1/10)
  let best := k1s.foldl (fun acc k1v =>
    bs.foldl (fun acc bv =>
      let avg := gridAvgQ log k1v bv corpus queries rels
      if acc.1 < avg then (avg, (k1v, bv)) else acc) acc)
    ((0 : ℚ), (k1, b))
  Except.ok best.2

/-! ## Substring search and lowercasing

The Python in operator on strings is containment of a contiguous
substring; str.lower is modelled on ASCII with Char.toLower. -/

/-- Containment of w in s as a contiguous substring (Python in). -/
def containsSub (w : List Char) : List Char → Bool
  | [] => w.isEmpty
  | c :: rest => w.isPrefixOf (c :: rest) || containsSub w rest

/-- ASCII model of str.lower. -/
def lowerL (s : List Char) : List Char :=
  s.map Char.toLower

/-! ## Sentiment and events (event_extractor.py) -/

/-- The positive sentiment keyword list of EventExtractor. -/
def positiveWords : List String :=
  ["excellent", "good", "great", "perfect", "amazing", "recommended"]

/-- The negative sentiment keyword list of EventExtractor. -/
def negativeWords : List String :=
  ["bad", "terrible", "horrible", "defective", "broken", "disappointing"]

/-- The neutral sentiment keyword list of EventExtractor. -/
def neutralWords : List String :=
  ["normal", "average", "acceptable", "regular"]

/-- The count of keywords of a list that occur in the lowercased text,
as computed by sum(1 for word in words if word in text_lower). -/
def countHits (ws : List String) (textLower : List Char) : Nat :=
  (ws.filter (fun w => containsSub w.toList textLower)).length

/-- EventExtractor._extract_sentiment (lines 93 to 105): compare the
positive hit count with the negative hit count over the whole lowercased
text; the neutral keyword list is never consulted. -/
def extractSentiment (text : List Char) : String :=
  let tl := lowerL text
  let positiveCount := countHits positiveWords tl
  let negativeCount := countHits negativeWords tl
  if negativeCount < positiveCount then "positive"
  else if positiveCount < negativeCount then "negative"
  else "neutral"

/-- Modelled from the spec (for comparison with extractSentiment, which
is the code): count occurrences of the positive, negative and neutral
keyword sets and take the majority class among the three, defaulting to
neutral when the counts are tied or inconclusive. -/
def specSentimentMajority (text : List Char) : String :=
  let tl := lowerL text
  let p := countHits positiveWords tl
  let n := countHits negativeWords tl
  let u := countHits neutralWords tl
  if n < p ∧ u < p then "positive"
  else if p < n ∧ u < n then "negative"
  else "neutral"

/-- A structured event as built by EventExtractor._create_event. -/
structure Event where
  etype : String
  trigger : String
  actor : Option String
  object : Option String
  time : Option String
  location : Option String
  sentiment : String
  confidence : ℚ
deriving Repr, DecidableEq

/-- The event trigger table of EventExtractor, in insertion order. -/
def eventTriggers : List (String × List String) :=
  [("purchase", ["bought", "purchased", "ordered", "acquired", "got"]),
   ("return", ["returned", "sent back", "exchanged", "gave back"]),
   ("complaint", ["complain", "complained", "claim", "protest", "upset"]),
   ("recommendation", ["recommend", "suggest", "advise"]),
   ("failure", ["failed", "broke", "stopped working", "does not work", "defective"]),
   ("function", ["works well", "works perfectly", "operates correctly"]),
   ("delivery", ["arrived", "received", "delivered", "came"]),
   ("rating", ["rate", "score", "value", "give stars"])]

/-- Python dict.get with default empty list, over an association list. -/
def lookupEnt (entities : List (String × List String)) (k : String) :
    List String :=
  match entities.lookup k with
  | some v => v
  | none => []

/-- EventExtractor._create_event (lines 58 to 91): the event type, the
trigger, the first Person as actor, the first Product or products entry
as object, the first Date as time, the first Location as location, the
sentiment of the whole review text, and confidence 0.7. -/
def createEvent (text : List Char) (trigger etype : String)
    (entities : List (String × List String)) : Event :=
  { etype := etype
    trigger := trigger
    actor := (lookupEnt entities "Person").head?
    object := ((lookupEnt entities "Product") ++ (lookupEnt entities "products")).head?
    time := (lookupEnt entities "Date").head?
    location := (lookupEnt entities "Location").head?
    sentiment := extractSentiment text
    confidence := 7/10 }

/-- EventExtractor.extract_events (lines 44 to 56): for each event type
in table order, each trigger phrase contained in the lowercased text
produces one event. -/
def extractEvents (text : List Char) (entities : List (String × List String)) :
    List Event :=
  let tl := lowerL text
  eventTriggers.flatMap (fun p =>
    (p.2.filter (fun tr => containsSub tr.toList tl)).map
      (fun tr => createEvent text tr p.1 entities))

/-! ## Relations (relationship_extractor.py) -/

/-- A relation dict as built by RelationshipExtractor; purchase
relations carry no type key, which the embedding represents with
rtype = none. -/
structure Relation where
  subject : String
  predicate : String
  object : String
  confidence : ℚ
  rtype : Option String
deriving Repr, DecidableEq

/-- The compra trigger list of RelationshipExtractor.relation_patterns. -/
def purchaseVerbs : List String :=
  ["compré", "compró", "adquirí", "pedí", "ordené"]

/-- The three keys extract_purchase_relations reads from its entities
dict argument with dict.get and default empty list. -/
structure EntityDict where
  persona : List String
  producto : List String
  products : List String
deriving Repr

/-- RelationshipExtractor.extract_purchase_relations (lines 86 to 110):
for each purchase verb contained in the lowercased text, every pair of a
Persona entry and a Producto or products entry such that both occur
(lowercased) in the text yields one relation with predicate compró and
confidence 0.8, and no type key. -/
def extractPurchaseRelations (text : List Char) (entities : EntityDict) :
    List Relation :=
  let tl := lowerL text
  (purchaseVerbs.filter (fun v => containsSub v.toList tl)).flatMap (fun _ =>
    entities.persona.flatMap (fun person =>
      (entities.producto ++ entities.products).filterMap (fun product =>
        if containsSub (lowerL person.toList) tl &&
            containsSub (lowerL product.toList) tl then
          some { subject := person, predicate := "compró", object := product,
                 confidence := 4/5, rtype := none }
        else none)))

/-- RelationshipExtractor.extract_all_relations (lines 112 to 130): the
subject verb object triples (produced by the external spaCy dependency
parse, here a parameter) each become a relation with confidence 0.5 and
type svo, followed by the purchase relations. -/
def extractAllRelations (svo : List (String × String × String))
    (text : List Char) (entities : EntityDict) : List Relation :=
  (svo.map (fun t =>
    { subject := t.1, predicate := t.2.1, object := t.2.2,
      confidence := 1/2, rtype := some "svo" })) ++
    extractPurchaseRelations text entities

/-! ## NER post-processing and the batch pipeline
(ner_extractor.py, main_processor.py) -/

/-- An entity dict as passed around by NERExtractor. -/
structure Entity where
  text : String
  label : String
  startPos : Nat
  endPos : Nat
  confidence : ℚ
deriving Repr

/-- The loop of NERExtractor._post_process_entities (lines 324 to 346)
with its seen set: an entity is kept when its key, the lowercased and
stripped text paired with the label, is new and its confidence is above
0.5; kept entities get stripped text and keep their confidence. -/
def postProcessGo (seen : List (String × String)) :
    List Entity → List Entity
  | [] => []
  | e :: rest =>
    let key := (String.mk (stripChars (lowerL e.text.toList)), e.label)
    if key ∉ seen ∧ (1/2 : ℚ) < e.confidence then
      { e with text := String.mk (stripChars e.text.toList) } ::
        postProcessGo (key :: seen) rest
    else
      postProcessGo seen rest

/-- NERExtractor._post_process_entities, starting from an empty seen
set. -/
def postProcessEntities (entities : List Entity) : List Entity :=
  postProcessGo [] entities

/-- RegexExtractor._calculate_model_confidence (lines 241 to 252): base
0.5, plus 0.3 when the known series regex matches and 0.2 when the
letters-digits code regex matches, capped at 1.0.  The two booleans
stand for the two re.search tests on the model text. -/
def calculateModelConfidence (knownSeries alnumCode : Bool) : ℚ :=
  min ((1/2) + (if knownSeries then 3/10 else 0) +
    (if alnumCode then 1/5 else 0)) 1

/-- The dict returned by NERExtractor.analyze_review. -/
structure AnalysisResult where
  entities : List (String × List String)
  products : List String
  brands : List String
  brandProducts : List (String × List String)
  allEntities : List Entity
deriving Repr

/-- The empty analysis dict substituted on failure (analyze_review
lines 604 to 611 and 641 to 649). -/
def emptyAnalysis : AnalysisResult :=
  ⟨[], [], [], [], []⟩

/-- NERExtractor.analyze_review (lines 602 to 649): empty input gives
the empty dict; otherwise the body, which runs the external NER backend
and is therefore a parameter here, is wrapped in try/except and any
error is replaced by the empty dict. -/
def analyzeReview (backend : List Char → Except String AnalysisResult)
    (text : List Char) : AnalysisResult :=
  if text.isEmpty then emptyAnalysis
  else
    match backend text with
    | Except.ok r => r
    | Except.error _ => emptyAnalysis

/-- The brand name mapping of OpinionExtractor._normalize_brand_name. -/
def brandMappings : List (String × String) :=
  [("sony", "Sony"), ("apple", "Apple"), ("samsung", "Samsung"),
   ("amazon", "Amazon"), ("google", "Google"), ("microsoft", "Microsoft"),
   ("lg", "LG"), ("hp", "HP"), ("dell", "Dell"), ("lenovo", "Lenovo"),
   ("asus", "ASUS"), ("acer", "Acer"), ("nike", "Nike"),
   ("adidas", "Adidas"), ("foundation", "Foundation"), ("intex", "Intex")]

/-- Python str.capitalize: first character uppercased, the rest
lowercased (ASCII model). -/
def capitalizeStr (s : String) : String :=
  match s.toList with
  | [] => ""
  | c :: rest => String.mk (Char.toUpper c :: lowerL rest)

/-- OpinionExtractor._normalize_brand_name (lines 29 to 62). -/
def normalizeBrandName (brand : String) : String :=
  if brand = "" then ""
  else
    let normalized := String.mk (lowerL (stripChars brand.toList))
    match brandMappings.lookup normalized with
    | some std => std
    | none => capitalizeStr normalized

/-- The loop of OpinionExtractor._clean_and_deduplicate_brands
(lines 64 to 80) with its seen set. -/
def cleanDedupGo (seen : List String) : List String → List String
  | [] => []
  | b :: rest =>
    if b = "" then cleanDedupGo seen rest
    else
      let normalized := normalizeBrandName b
      if normalized ≠ "" ∧ normalized ∉ seen then
        normalized :: cleanDedupGo (normalized :: seen) rest
      else
        cleanDedupGo seen rest

/-- OpinionExtractor._clean_and_deduplicate_brands. -/
def cleanAndDedupBrands (brands : List String) : List String :=
  cleanDedupGo [] brands

/-- The dict process_single_review passes to extract_events is the
whole analyze_review result; of the keys _create_event queries (Person,
Product, products, Date, Location) only products exists there, so the
restriction of that dict to the queried keys is this singleton map. -/
def analysisEventDict (a : AnalysisResult) : List (String × List String) :=
  [("products", a.products)]

/-- Likewise, extract_purchase_relations receives the whole
analyze_review result as its entities dict; of the keys it reads
(Persona, Producto, products) only products exists there. -/
def analysisRelationDict (a : AnalysisResult) : EntityDict :=
  ⟨[], [], a.products⟩

/-- A processed review dict as built by process_single_review (the
fields the claims are about; metadata and timestamps are omitted). -/
structure Review where
  id : String
  originalText : List Char
  cleanText : List Char
  entities : List (String × List String)
  products : List String
  brands : List String
  relations : List Relation
  events : List Event
deriving Repr, Inhabited

/-- OpinionExtractor.process_single_review (main_processor.py lines 122
to 158): clean the text, run the NER analysis (with its internal
try/except), normalize brands, extract relations and events.  The NER
backend and the spaCy dependency triples are parameters. -/
def processSingleReview (backend : List Char → Except String AnalysisResult)
    (svo : List Char → List (String × String × String))
    (text : List Char) (rid : String) : Review :=
  let analysis := analyzeReview backend text
  { id := rid
    originalText := text
    cleanText := cleanTextRun text
    entities := analysis.entities
    products := analysis.products
    brands := cleanAndDedupBrands analysis.brands
    relations := extractAllRelations (svo text) text (analysisRelationDict analysis)
    events := extractEvents text (analysisEventDict analysis) }

/-- The row loop of OpinionExtractor.process_csv (lines 97 to 107),
carrying the running row index used to build the review id. -/
def processCsvFrom (backend : List Char → Except String AnalysisResult)
    (svo : List Char → List (String × String × String)) (i : Nat) :
    List (List Char) → List Review
  | [] => []
  | t :: ts =>
    processSingleReview backend svo t ("review_" ++ toString i) ::
      processCsvFrom backend svo (i + 1) ts

/-- OpinionExtractor.process_csv over an already loaded list of review
texts. -/
def processCsv (backend : List Char → Except String AnalysisResult)
    (svo : List Char → List (String × String × String))
    (rows : List (List Char)) : List Review :=
  processCsvFrom backend svo 0 rows

/-! ## Helper lemmas about the cleaning pipeline -/

theorem head?_dropWhile_false {α} {p : α → Bool} {l : List α} {c : α}
    (hc : (l.dropWhile p).head? = some c) : p c = false := by
  induction l with
  | nil => simp at hc
  | cons a rest ih =>
    rw [List.dropWhile_cons] at hc
    by_cases hp : p a
    · rw [if_pos hp] at hc
      exact ih hc
    · rw [if_neg hp, List.head?_cons] at hc
      injection hc with h
      rw [h] at hp
      simpa using hp

theorem suffix_getLast?_eq {α} {x y : List α} (h : x <:+ y) (hx : x ≠ []) :
    y.getLast? = x.getLast? := by
  obtain ⟨p, rfl⟩ := h
  rw [List.getLast?_append]
  cases hgl : x.getLast? with
  | none => exact absurd (List.getLast?_eq_none_iff.mp hgl) hx
  | some a => rfl

theorem matchURL_eq_none_of_no_slash {l : List Char} (h : '/' ∉ l) :
    matchURL l = none := by
  unfold matchURL
  have h1 : ¬ ("https://".toList.isPrefixOf l = true) := by
    intro hpre
    exact h ((List.isPrefixOf_iff_prefix.mp hpre).subset (by decide))
  have h2 : ¬ ("http://".toList.isPrefixOf l = true) := by
    intro hpre
    exact h ((List.isPrefixOf_iff_prefix.mp hpre).subset (by decide))
  rw [if_neg h1, if_neg h2]

theorem removeURLs_of_no_slash (l : List Char) :
    '/' ∉ l → removeURLs l = l := by
  induction l using removeURLs.induct with
  | case1 x r hm ih =>
    intro hns
    rw [matchURL_eq_none_of_no_slash hns] at hm
    cases hm
  | case2 hm1 hm2 =>
    intro _
    rw [removeURLs]
    split
    · rename_i r hm
      rw [hm1] at hm
      cases hm
    · rfl
  | case3 c rest hm1 hm2 ih =>
    intro hns
    rw [removeURLs]
    split
    · rename_i r hm
      rw [hm1] at hm
      cases hm
    · show c :: removeURLs rest = c :: rest
      rw [ih (fun hmem => hns (List.mem_cons_of_mem c hmem))]

theorem collapseSpaces_nil : collapseSpaces [] = [] := by
  rw [collapseSpaces.eq_def]

theorem collapseSpaces_cons (c : Char) (rest : List Char) :
    collapseSpaces (c :: rest) =
      if isSpaceChar c then
        ' ' :: collapseSpaces (rest.dropWhile isSpaceChar)
      else c :: collapseSpaces rest := by
  rw [collapseSpaces.eq_def]

theorem removeMentions_cons (c : Char) (rest : List Char) :
    removeMentions (c :: rest) =
      if (c = '@' || c = '#') &&
          (match rest with
           | d :: _ => isWordChar d
           | [] => false) then
        removeMentions (rest.dropWhile isWordChar)
      else c :: removeMentions rest := by
  rw [removeMentions.eq_def]

theorem removeMentions_of_no_marks (l : List Char)
    (h : ∀ c ∈ l, c ≠ '@' ∧ c ≠ '#') : removeMentions l = l := by
  induction l using removeMentions.induct with
  | case1 => rw [removeMentions.eq_def]
  | case2 c rest hcond ih =>
    exfalso
    have hc := h c (List.mem_cons_self c rest)
    have := Bool.and_elim_left hcond
    rcases Bool.or_eq_true_iff.mp this with h1 | h1
    · exact hc.1 (by simpa using h1)
    · exact hc.2 (by simpa using h1)
  | case3 c rest hcond ih =>
    rw [removeMentions_cons]
    rw [if_neg hcond]
    rw [ih (fun d hd => h d (List.mem_cons_of_mem c hd))]

theorem mem_collapseSpaces {l : List Char} {c : Char}
    (h : c ∈ collapseSpaces l) : c = ' ' ∨ c ∈ l := by
  induction l using collapseSpaces.induct with
  | case1 => simp [collapseSpaces] at h
  | case2 a rest ha ih =>
    rw [collapseSpaces, if_pos ha] at h
    rcases List.mem_cons.mp h with h1 | h1
    · exact Or.inl h1
    · rcases ih h1 with h2 | h2
      · exact Or.inl h2
      · exact Or.inr (List.mem_cons_of_mem a
          ((List.dropWhile_sublist _).subset h2))
  | case3 a rest ha ih =>
    rw [collapseSpaces, if_neg ha] at h
    rcases List.mem_cons.mp h with h1 | h1
    · exact Or.inr (h1 ▸ List.mem_cons_self a rest)
    · rcases ih h1 with h2 | h2
      · exact Or.inl h2
      · exact Or.inr (List.mem_cons_of_mem a h2)

theorem collapseSpaces_head?_false {l : List Char} {c : Char}
    (hl : ∀ d, l.head? = some d → isSpaceChar d = false)
    (hc : (collapseSpaces l).head? = some c) : isSpaceChar c = false := by
  cases l with
  | nil => simp [collapseSpaces] at hc
  | cons a rest =>
    have ha : isSpaceChar a = false := hl a (List.head?_cons)
    rw [collapseSpaces, if_neg (by simp [ha]), List.head?_cons] at hc
    injection hc with h
    rw [h] at ha
    exact ha

theorem getLast?_ne_nil {α} {l : List α} {c : α} (h : l.getLast? = some c) :
    l ≠ [] := by
  intro hl
  rw [hl] at h
  simp at h

theorem mem_of_getLast?_eq {α} {l : List α} {c : α}
    (h : l.getLast? = some c) : c ∈ l := by
  have hne := getLast?_ne_nil h
  rw [List.getLast?_eq_getLast l hne] at h
  injection h with h
  rw [← h]
  exact List.getLast_mem hne

theorem getLast?_cons_of_ne_nil {α} {l : List α} (a : α) (h : l ≠ []) :
    (a :: l).getLast? = l.getLast? := by
  cases l with
  | nil => exact absurd rfl h
  | cons b rs => exact List.getLast?_cons_cons

theorem dropWhile_eq_self_of_head {α} (p : α → Bool) (l : List α)
    (h : ∀ d, l.head? = some d → p d = false) : l.dropWhile p = l := by
  cases l with
  | nil => rfl
  | cons a rest =>
    rw [List.dropWhile_cons, if_neg]
    rw [h a List.head?_cons]
    simp

theorem collapseSpaces_getLast?_eq {c : Char} (hc : isSpaceChar c = false) :
    ∀ l : List Char, l.getLast? = some c →
      (collapseSpaces l).getLast? = some c := by
  intro l
  induction l using collapseSpaces.induct with
  | case1 =>
    intro h
    simp at h
  | case2 a rest ha ih =>
    intro h
    rw [collapseSpaces, if_pos ha]
    have hrest : rest ≠ [] := by
      intro hr
      subst hr
      simp [List.getLast?] at h
      rw [← h] at hc
      rw [hc] at ha
      cases ha
    have hlast : rest.getLast? = some c := by
      cases rest with
      | nil => exact absurd rfl hrest
      | cons b rs => rw [← List.getLast?_cons_cons (a := a)]; exact h
    have hdw : rest.dropWhile isSpaceChar ≠ [] := by
      intro hd
      have hall := List.dropWhile_eq_nil_iff.mp hd
      have hcm : c ∈ rest := mem_of_getLast?_eq hlast
      have := hall c hcm
      rw [this] at hc
      cases hc
    have hdwlast : (rest.dropWhile isSpaceChar).getLast? = some c := by
      rw [← suffix_getLast?_eq (List.dropWhile_suffix _) hdw]
      exact hlast
    have hcoll := ih hdwlast
    rw [getLast?_cons_of_ne_nil ' ' (getLast?_ne_nil hcoll)]
    exact hcoll
  | case3 a rest ha ih =>
    intro h
    rw [collapseSpaces, if_neg ha]
    cases rest with
    | nil =>
      rw [collapseSpaces]
      exact h
    | cons b rs =>
      have hlast : (b :: rs).getLast? = some c := by
        rw [← List.getLast?_cons_cons (a := a)]
        exact h
      have hcoll := ih hlast
      rw [getLast?_cons_of_ne_nil a (getLast?_ne_nil hcoll)]
      exact hcoll

theorem collapseSpaces_idem (l : List Char) :
    collapseSpaces (collapseSpaces l) = collapseSpaces l := by
  induction l using collapseSpaces.induct with
  | case1 => simp only [collapseSpaces_nil]
  | case2 a rest ha ih =>
    have h1 : collapseSpaces (a :: rest) =
        ' ' :: collapseSpaces (rest.dropWhile isSpaceChar) := by
      rw [collapseSpaces_cons, if_pos ha]
    rw [h1]
    have h2 : collapseSpaces (' ' :: collapseSpaces (rest.dropWhile isSpaceChar)) =
        ' ' :: collapseSpaces
          ((collapseSpaces (rest.dropWhile isSpaceChar)).dropWhile isSpaceChar) := by
      rw [collapseSpaces_cons, if_pos (by decide : isSpaceChar ' ' = true)]
    rw [h2]
    rw [dropWhile_eq_self_of_head _ _ (fun d hd =>
      collapseSpaces_head?_false (fun e he => head?_dropWhile_false he) hd)]
    rw [ih]
  | case3 a rest ha ih =>
    have h1 : collapseSpaces (a :: rest) = a :: collapseSpaces rest := by
      rw [collapseSpaces_cons, if_neg ha]
    rw [h1]
    have h2 : collapseSpaces (a :: collapseSpaces rest) =
        a :: collapseSpaces (collapseSpaces rest) := by
      rw [collapseSpaces_cons, if_neg ha]
    rw [h2, ih]

theorem mem_stripChars {l : List Char} {c : Char} (h : c ∈ stripChars l) :
    c ∈ l := by
  unfold stripChars at h
  rw [List.mem_reverse] at h
  have h1 := (List.dropWhile_sublist _).subset h
  rw [List.mem_reverse] at h1
  exact (List.dropWhile_sublist _).subset h1

theorem stripChars_head?_false {w : List Char} {c : Char}
    (h : (stripChars w).head? = some c) : isSpaceChar c = false := by
  unfold stripChars at h
  rw [List.head?_reverse] at h
  have hne : (w.dropWhile isSpaceChar).reverse.dropWhile isSpaceChar ≠ [] :=
    getLast?_ne_nil h
  rw [← suffix_getLast?_eq (List.dropWhile_suffix _) hne] at h
  rw [List.getLast?_reverse] at h
  exact head?_dropWhile_false h

theorem stripChars_getLast?_false {w : List Char} {c : Char}
    (h : (stripChars w).getLast? = some c) : isSpaceChar c = false := by
  unfold stripChars at h
  rw [List.getLast?_reverse] at h
  exact head?_dropWhile_false h

theorem stripChars_eq_self {x : List Char}
    (hh : ∀ c, x.head? = some c → isSpaceChar c = false)
    (hl : ∀ c, x.getLast? = some c → isSpaceChar c = false) :
    stripChars x = x := by
  unfold stripChars
  rw [dropWhile_eq_self_of_head _ _ hh]
  rw [dropWhile_eq_self_of_head _ _ (fun d hd => hl d (by rwa [List.head?_reverse] at hd))]
  exact List.reverse_reverse x

theorem mem_cleanTextInternal_keep {t : List Char} {c : Char}
    (h : c ∈ cleanTextInternal t) : keepChar c = true := by
  unfold cleanTextInternal at h
  have h1 := mem_stripChars h
  exact (List.mem_filter.mp h1).2

/-- Core of the two pass analysis: on any text whose characters are all
in the safe set and which has no leading or trailing whitespace (which
is what cleanTextInternal always produces), the pipeline reduces to
whitespace collapsing alone. -/
theorem cleanTextInternal_of_safe {x : List Char}
    (hkeep : ∀ c ∈ x, keepChar c = true)
    (hh : ∀ c, x.head? = some c → isSpaceChar c = false)
    (hl : ∀ c, x.getLast? = some c → isSpaceChar c = false) :
    cleanTextInternal x = collapseSpaces x := by
  have hslash : '/' ∉ x := fun hmem => absurd (hkeep '/' hmem) (by decide)
  have hmarks : ∀ c ∈ x, c ≠ '@' ∧ c ≠ '#' := by
    intro c hmem
    constructor
    · intro hc
      subst hc
      exact absurd (hkeep '@' hmem) (by decide)
    · intro hc
      subst hc
      exact absurd (hkeep '#' hmem) (by decide)
  unfold cleanTextInternal
  rw [removeURLs_of_no_slash x hslash]
  rw [removeMentions_of_no_marks x hmarks]
  rw [show removeUnsafe (collapseSpaces x) = collapseSpaces x from
    List.filter_eq_self.mpr (fun a ha => by
      rcases mem_collapseSpaces ha with h1 | h1
      · subst h1
        decide
      · exact hkeep a h1)]
  apply stripChars_eq_self
  · intro c hc
    exact collapseSpaces_head?_false hh hc
  · intro c hc
    cases hgl : x.getLast? with
    | none =>
      rw [List.getLast?_eq_none_iff.mp hgl] at hc
      rw [collapseSpaces] at hc
      simp at hc
    | some d =>
      have hd := hl d hgl
      have := collapseSpaces_getLast?_eq hd x hgl
      rw [this] at hc
      injection hc with hc
      rw [← hc]
      exact hd

theorem removeURLs_nil : removeURLs [] = [] :=
  removeURLs_of_no_slash [] (by simp)

theorem removeURLs_cons_none {c : Char} {rest : List Char}
    (h : matchURL (c :: rest) = none) :
    removeURLs (c :: rest) = c :: removeURLs rest := by
  rw [removeURLs]
  split
  · rename_i r hm
    rw [h] at hm
    cases hm
  · rfl

/-- C8 (amended): the cleaning normalization is not idempotent, because
dropping an unsafe character can leave two adjacent spaces that only the
next pass collapses; instead, a second application of the cleaner equals
whitespace collapsing of the first result, and the cleaner stabilizes
after two applications. -/
theorem clean_text_two_pass_stable (t : List Char) :
    cleanTextInternal (cleanTextInternal t) =
      collapseSpaces (cleanTextInternal t) ∧
    cleanTextInternal (cleanTextInternal (cleanTextInternal t)) =
      cleanTextInternal (cleanTextInternal t) := by
  have hkeep : ∀ c ∈ cleanTextInternal t, keepChar c = true :=
    fun c hc => mem_cleanTextInternal_keep hc
  have hh : ∀ c, (cleanTextInternal t).head? = some c →
      isSpaceChar c = false := by
    intro c hc
    unfold cleanTextInternal at hc
    exact stripChars_head?_false hc
  have hl : ∀ c, (cleanTextInternal t).getLast? = some c →
      isSpaceChar c = false := by
    intro c hc
    unfold cleanTextInternal at hc
    exact stripChars_getLast?_false hc
  have h2 := cleanTextInternal_of_safe hkeep hh hl
  refine ⟨h2, ?_⟩
  rw [h2]
  have hkeep2 : ∀ c ∈ collapseSpaces (cleanTextInternal t), keepChar c = true := by
    intro c hc
    rcases mem_collapseSpaces hc with h1 | h1
    · subst h1
      decide
    · exact hkeep c h1
  have hh2 : ∀ c, (collapseSpaces (cleanTextInternal t)).head? = some c →
      isSpaceChar c = false :=
    fun c hc => collapseSpaces_head?_false hh hc
  have hl2 : ∀ c, (collapseSpaces (cleanTextInternal t)).getLast? = some c →
      isSpaceChar c = false := by
    intro c hc
    cases hgl : (cleanTextInternal t).getLast? with
    | none =>
      rw [List.getLast?_eq_none_iff.mp hgl, collapseSpaces_nil] at hc
      simp at hc
    | some d =>
      have hd := hl d hgl
      rw [collapseSpaces_getLast?_eq hd _ hgl] at hc
      injection hc with hc
      rw [← hc]
      exact hd
  have h3 := cleanTextInternal_of_safe hkeep2 hh2 hl2
  rw [h3]
  exact collapseSpaces_idem _

/-- C8 counterexample: on the five character input a space slash space
b, one cleaning pass drops the slash and leaves a double space, and a
second pass collapses it, so clean of clean differs from clean. -/
theorem clean_text_not_idempotent :
    cleanTextInternal ['a', ' ', '/', ' ', 'b'] = ['a', ' ', ' ', 'b'] ∧
    cleanTextInternal (cleanTextInternal ['a', ' ', '/', ' ', 'b']) =
      ['a', ' ', 'b'] := by
  have hurl1 : removeURLs ['a', ' ', '/', ' ', 'b'] = ['a', ' ', '/', ' ', 'b'] := by
    rw [removeURLs_cons_none (by decide), removeURLs_cons_none (by decide),
      removeURLs_cons_none (by decide), removeURLs_cons_none (by decide),
      removeURLs_cons_none (by decide), removeURLs_nil]
  have hcoll1 : collapseSpaces ['a', ' ', '/', ' ', 'b'] = ['a', ' ', '/', ' ', 'b'] := by
    rw [collapseSpaces_cons, if_neg (by decide),
      collapseSpaces_cons, if_pos (by decide),
      show List.dropWhile isSpaceChar ['/', ' ', 'b'] = ['/', ' ', 'b'] from by decide,
      collapseSpaces_cons, if_neg (by decide),
      collapseSpaces_cons, if_pos (by decide),
      show List.dropWhile isSpaceChar ['b'] = ['b'] from by decide,
      collapseSpaces_cons, if_neg (by decide),
      collapseSpaces_nil]
  have hpass1 : cleanTextInternal ['a', ' ', '/', ' ', 'b'] = ['a', ' ', ' ', 'b'] := by
    unfold cleanTextInternal
    rw [hurl1, removeMentions_of_no_marks _ (by decide), hcoll1]
    decide
  refine ⟨hpass1, ?_⟩
  rw [hpass1]
  have hcoll2 : collapseSpaces ['a', ' ', ' ', 'b'] = ['a', ' ', 'b'] := by
    rw [collapseSpaces_cons, if_neg (by decide),
      collapseSpaces_cons, if_pos (by decide),
      show List.dropWhile isSpaceChar [' ', 'b'] = ['b'] from by decide,
      collapseSpaces_cons, if_neg (by decide),
      collapseSpaces_nil]
  unfold cleanTextInternal
  rw [removeURLs_of_no_slash _ (by decide),
    removeMentions_of_no_marks _ (by decide), hcoll2]
  decide

/-- C10: the public clean_text wrapper maps None, non-string and empty
inputs to the empty string, returns the original text unchanged when the
internal cleaning step raises, never propagates an error, and on a plain
nonempty string returns the value of the internal pipeline. -/
theorem clean_text_wrapper_safe :
    (∀ f, cleanTextWith f none = Except.ok []) ∧
    (∀ f, cleanTextWith f (some []) = Except.ok []) ∧
    (∀ f s e, f s = Except.error e → cleanTextWith f (some s) = Except.ok s) ∧
    (∀ f v, ∃ r, cleanTextWith f v = Except.ok r) ∧
    (∀ s, cleanTextPy (some s) = Except.ok (cleanTextRun s)) := by
  refine ⟨fun f => rfl, fun f => rfl, ?_, ?_, ?_⟩
  · intro f s e he
    cases s with
    | nil => rfl
    | cons c rest =>
      show (match f (c :: rest) with
        | Except.ok r => Except.ok r
        | Except.error _ => Except.ok (c :: rest)) = Except.ok (c :: rest)
      rw [he]
  · intro f v
    match v with
    | none => exact ⟨[], rfl⟩
    | some s =>
      cases s with
      | nil => exact ⟨[], rfl⟩
      | cons c rest =>
        cases hf : f (c :: rest) with
        | ok r =>
          refine ⟨r, ?_⟩
          show (match f (c :: rest) with
            | Except.ok r => Except.ok r
            | Except.error _ => Except.ok (c :: rest)) = Except.ok r
          rw [hf]
        | error err =>
          refine ⟨c :: rest, ?_⟩
          show (match f (c :: rest) with
            | Except.ok r => Except.ok r
            | Except.error _ => Except.ok (c :: rest)) = Except.ok (c :: rest)
          rw [hf]
  · intro s
    cases s with
    | nil => rfl
    | cons c rest => rfl

/-- Witness for C10 at a concrete failing internal step: the wrapper
returns the original one character text. -/
theorem clean_text_wrapper_safe_witness :
    cleanTextWith (fun _ => Except.error "boom") (some ['a']) =
      Except.ok ['a'] :=
  clean_text_wrapper_safe.2.2.1 _ ['a'] "boom" rfl

/-- C4 (amended): the sentiment attached to each event is computed over
the whole review text by comparing only the positive and negative
keyword presence counts (the neutral keyword list is never consulted):
positive when strictly more positive keywords occur, negative when
strictly more negative keywords occur, neutral exactly on a tie; the
result is always one of the three values, and the event built by
_create_event carries exactly this sentiment. -/
theorem sentiment_pos_neg_comparison (text : List Char) :
    (extractSentiment text = "positive" ∨ extractSentiment text = "negative" ∨
      extractSentiment text = "neutral") ∧
    (extractSentiment text = "positive" ↔
      countHits negativeWords (lowerL text) < countHits positiveWords (lowerL text)) ∧
    (extractSentiment text = "negative" ↔
      countHits positiveWords (lowerL text) < countHits negativeWords (lowerL text)) ∧
    (extractSentiment text = "neutral" ↔
      countHits positiveWords (lowerL text) = countHits negativeWords (lowerL text)) ∧
    (∀ trigger etype entities,
      (createEvent text trigger etype entities).sentiment = extractSentiment text) := by
  have he : extractSentiment text =
      if countHits negativeWords (lowerL text) <
          countHits positiveWords (lowerL text) then "positive"
      else if countHits positiveWords (lowerL text) <
          countHits negativeWords (lowerL text) then "negative"
      else "neutral" := rfl
  have hiff : (extractSentiment text = "positive" ↔
        countHits negativeWords (lowerL text) < countHits positiveWords (lowerL text)) ∧
      (extractSentiment text = "negative" ↔
        countHits positiveWords (lowerL text) < countHits negativeWords (lowerL text)) ∧
      (extractSentiment text = "neutral" ↔
        countHits positiveWords (lowerL text) = countHits negativeWords (lowerL text)) := by
    rcases Nat.lt_trichotomy (countHits negativeWords (lowerL text))
      (countHits positiveWords (lowerL text)) with h | h | h
    · have hs : extractSentiment text = "positive" := by rw [he, if_pos h]
      rw [hs]
      exact ⟨iff_of_true rfl h, iff_of_false (by decide) (by omega),
        iff_of_false (by decide) (by omega)⟩
    · have hs : extractSentiment text = "neutral" := by
        rw [he, if_neg (by omega), if_neg (by omega)]
      rw [hs]
      exact ⟨iff_of_false (by decide) (by omega),
        iff_of_false (by decide) (by omega), iff_of_true rfl (by omega)⟩
    · have hs : extractSentiment text = "negative" := by
        rw [he, if_neg (by omega), if_pos h]
      rw [hs]
      exact ⟨iff_of_false (by decide) (by omega), iff_of_true rfl h,
        iff_of_false (by decide) (by omega)⟩
  refine ⟨?_, hiff.1, hiff.2.1, hiff.2.2, fun _ _ _ => rfl⟩
  rcases Nat.lt_trichotomy (countHits negativeWords (lowerL text))
    (countHits positiveWords (lowerL text)) with h | h | h
  · exact Or.inl (hiff.1.mpr h)
  · exact Or.inr (Or.inr (hiff.2.2.mpr (by omega)))
  · exact Or.inr (Or.inl (hiff.2.1.mpr h))

/-- C4 counterexample: on the text with three neutral keywords and one
positive keyword, the majority rule of the claim answers neutral, but
the code answers positive, because the neutral lexicon is never
counted. -/
theorem sentiment_majority_rule_differs :
    extractSentiment "average normal regular good".toList = "positive" ∧
    specSentimentMajority "average normal regular good".toList = "neutral" := by
  constructor
  · decide
  · decide

/-! ## Helper lemmas for the relation extractor -/

theorem filterMap_guard_eq_map_filter {α β} (c : α → Bool) (f : α → β)
    (l : List α) :
    (l.filterMap (fun a => if c a then some (f a) else none)) =
      (l.filter c).map f := by
  induction l with
  | nil => rfl
  | cons a rest ih =>
    by_cases h : c a
    · simp [List.filterMap_cons, List.filter_cons, h, ih]
    · simp [List.filterMap_cons, List.filter_cons, h, ih]

theorem sum_map_guard {α} (c : α → Bool) (K : Nat) (l : List α) :
    (l.map (fun a => if c a then K else 0)).sum = (l.filter c).length * K := by
  induction l with
  | nil => simp
  | cons a rest ih =>
    rw [List.map_cons, List.sum_cons, List.filter_cons, ih]
    by_cases h : c a
    · rw [if_pos h, if_pos h, List.length_cons, Nat.succ_mul, Nat.add_comm]
    · rw [if_neg h, if_neg h, Nat.zero_add]

theorem length_flatMap_sum {α β} (l : List α) (g : α → List β) :
    (l.flatMap g).length = (l.map (fun a => (g a).length)).sum := by
  induction l with
  | nil => simp
  | cons a rest ih =>
    rw [List.flatMap_cons, List.length_append, ih, List.map_cons, List.sum_cons]

theorem length_flatMap_const {α β} (l : List α) (y : List β) :
    (l.flatMap (fun _ => y)).length = l.length * y.length := by
  induction l with
  | nil => simp
  | cons a rest ih =>
    rw [List.flatMap_cons, List.length_append, ih, List.length_cons,
      Nat.succ_mul, Nat.add_comm]

/-- Shape of every relation emitted by extract_purchase_relations. -/
theorem mem_extractPurchaseRelations {text : List Char}
    {entities : EntityDict} {r : Relation}
    (h : r ∈ extractPurchaseRelations text entities) :
    r.predicate = "compró" ∧ r.confidence = 4/5 ∧ r.rtype = none ∧
    r.subject ∈ entities.persona ∧
    r.object ∈ entities.producto ++ entities.products ∧
    containsSub (lowerL r.subject.toList) (lowerL text) = true ∧
    containsSub (lowerL r.object.toList) (lowerL text) = true := by
  simp only [extractPurchaseRelations] at h
  rw [List.mem_flatMap] at h
  obtain ⟨v, hv, h⟩ := h
  rw [List.mem_flatMap] at h
  obtain ⟨person, hperson, h⟩ := h
  rw [List.mem_filterMap] at h
  obtain ⟨product, hproduct, h⟩ := h
  split at h
  · rename_i hcond
    injection h with h
    subst h
    rw [Bool.and_eq_true] at hcond
    exact ⟨rfl, rfl, rfl, hperson, hproduct, hcond.1, hcond.2⟩
  · cases h

/-- C5 (amended): for each purchase trigger phrase contained in the
lowercased text, extract_purchase_relations emits one relation per pair
of a Persona entry and a Producto or products entry that both occur
(lowercased) in the text; every emitted relation has predicate compró,
confidence 0.8 and no kind field, and the total count is the number of
triggers present times the number of qualifying pairs, so pairs are
duplicated once per trigger. -/
theorem purchase_relations_per_trigger_pairs (text : List Char)
    (entities : EntityDict) :
    (∀ r ∈ extractPurchaseRelations text entities,
      r.predicate = "compró" ∧ r.confidence = 4/5 ∧ r.rtype = none ∧
      r.subject ∈ entities.persona ∧
      r.object ∈ entities.producto ++ entities.products ∧
      containsSub (lowerL r.subject.toList) (lowerL text) = true ∧
      containsSub (lowerL r.object.toList) (lowerL text) = true) ∧
    (extractPurchaseRelations text entities).length =
      (purchaseVerbs.filter (fun v => containsSub v.toList (lowerL text))).length *
        ((entities.persona.filter
            (fun p => containsSub (lowerL p.toList) (lowerL text))).length *
          ((entities.producto ++ entities.products).filter
            (fun q => containsSub (lowerL q.toList) (lowerL text))).length) := by
  refine ⟨fun r hr => mem_extractPurchaseRelations hr, ?_⟩
  have hg : ∀ person : String,
      ((entities.producto ++ entities.products).filterMap (fun product =>
        if containsSub (lowerL person.toList) (lowerL text) &&
            containsSub (lowerL product.toList) (lowerL text) then
          some ({ subject := person, predicate := "compró", object := product,
                  confidence := (4/5 : ℚ), rtype := none } : Relation)
        else none)).length =
      if containsSub (lowerL person.toList) (lowerL text) then
        ((entities.producto ++ entities.products).filter
          (fun q => containsSub (lowerL q.toList) (lowerL text))).length
      else 0 := by
    intro person
    rw [filterMap_guard_eq_map_filter
      (fun product => containsSub (lowerL person.toList) (lowerL text) &&
        containsSub (lowerL product.toList) (lowerL text))
      (fun product => Relation.mk person "compró" product (4/5 : ℚ) none)]
    rw [List.length_map]
    by_cases hp : containsSub (lowerL person.toList) (lowerL text) = true
    · rw [if_pos hp]
      congr 1
      apply List.filter_congr
      intro q _
      rw [hp, Bool.true_and]
    · rw [if_neg hp]
      have hfalse : containsSub (lowerL person.toList) (lowerL text) = false := by
        simpa using hp
      rw [show (entities.producto ++ entities.products).filter
          (fun product => containsSub (lowerL person.toList) (lowerL text) &&
            containsSub (lowerL product.toList) (lowerL text)) = [] from by
        rw [List.filter_eq_nil_iff.mpr]
        intro q _
        rw [hfalse, Bool.false_and]
        simp]
      rfl
  simp only [extractPurchaseRelations]
  rw [length_flatMap_const]
  congr 1
  rw [length_flatMap_sum]
  rw [List.map_congr_left (fun person _ => hg person)]
  rw [sum_map_guard]

/-- C5 counterexample: a text containing two purchase triggers and one
qualifying Person and Product pair yields two identical relations (one
per trigger), and none of them carries a kind field. -/
theorem purchase_relations_duplicated :
    (extractPurchaseRelations "ana compré compró tv".toList
        ⟨["Ana"], ["TV"], []⟩).length = 2 ∧
    (extractPurchaseRelations "ana compré compró tv".toList
        ⟨["Ana"], ["TV"], []⟩).map Relation.rtype = [none, none] ∧
    (extractPurchaseRelations "ana compré compró tv".toList
        ⟨["Ana"], ["TV"], []⟩).map Relation.subject = ["Ana", "Ana"] ∧
    (extractPurchaseRelations "ana compré compró tv".toList
        ⟨["Ana"], ["TV"], []⟩).map Relation.object = ["TV", "TV"] := by
  refine ⟨?_, ?_, ?_, ?_⟩ <;> decide

/-- Witness for C5 at one trigger and one pair: the emitted relation has
the stated shape. -/
theorem purchase_relations_per_trigger_pairs_witness :
    (Relation.mk "Ana" "compró" "TV" (4/5 : ℚ) none).predicate = "compró" ∧
    (Relation.mk "Ana" "compró" "TV" (4/5 : ℚ) none).confidence = 4/5 ∧
    (Relation.mk "Ana" "compró" "TV" (4/5 : ℚ) none).rtype = none ∧
    (Relation.mk "Ana" "compró" "TV" (4/5 : ℚ) none).subject ∈
      (EntityDict.mk ["Ana"] ["TV"] []).persona ∧
    (Relation.mk "Ana" "compró" "TV" (4/5 : ℚ) none).object ∈
      (EntityDict.mk ["Ana"] ["TV"] []).producto ++
        (EntityDict.mk ["Ana"] ["TV"] []).products ∧
    containsSub
      (lowerL (Relation.mk "Ana" "compró" "TV" (4/5 : ℚ) none).subject.toList)
      (lowerL "ana compré tv".toList) = true ∧
    containsSub
      (lowerL (Relation.mk "Ana" "compró" "TV" (4/5 : ℚ) none).object.toList)
      (lowerL "ana compré tv".toList) = true :=
  (purchase_relations_per_trigger_pairs "ana compré tv".toList
      (EntityDict.mk ["Ana"] ["TV"] [])).1
    (Relation.mk "Ana" "compró" "TV" (4/5 : ℚ) none)
    (by
      show Relation.mk "Ana" "compró" "TV" (4/5 : ℚ) none ∈
        (purchaseVerbs.filter
          (fun v => containsSub v.toList (lowerL "ana compré tv".toList))).flatMap
          (fun _ => (["Ana"] : List String).flatMap (fun person =>
            ((["TV"] : List String) ++ ([] : List String)).filterMap
              (fun product =>
                if containsSub (lowerL person.toList)
                      (lowerL "ana compré tv".toList) &&
                    containsSub (lowerL product.toList)
                      (lowerL "ana compré tv".toList) then
                  some (Relation.mk person "compró" product (4/5 : ℚ) none)
                else none)))
      refine List.mem_flatMap.mpr ⟨"compré", by decide, ?_⟩
      refine List.mem_flatMap.mpr ⟨"Ana", by decide, ?_⟩
      refine List.mem_filterMap.mpr ⟨"TV", by decide, ?_⟩
      rfl)

/-! ## Confidence ranges (C9) -/

theorem postProcessGo_singleton_kept (e : Entity)
    (h : (1/2 : ℚ) < e.confidence) :
    postProcessGo [] [e] =
      [{ e with text := String.mk (stripChars e.text.toList) }] := by
  simp only [postProcessGo]
  rw [if_pos ⟨List.not_mem_nil _, h⟩]

/-- C9: every confidence an extractor produces is in the unit interval:
the NER post-processing preserves input confidences (which the in-repo
taggers set to 0.9, 0.7 or 0.6) and only keeps values above 0.5, so
inputs in the unit interval stay there; the model code confidence is
capped into the interval for every combination of the two regex tests;
events carry 0.7; both relation paths carry 0.5 or 0.8. -/
theorem extractor_confidences_in_unit_range :
    (∀ seen raw, (∀ x ∈ raw, (0:ℚ) ≤ x.confidence ∧ x.confidence ≤ 1) →
      ∀ e ∈ postProcessGo seen raw,
        (0:ℚ) ≤ e.confidence ∧ e.confidence ≤ 1) ∧
    (∀ seen raw, ∀ e ∈ postProcessGo seen raw,
      (1/2 : ℚ) < e.confidence ∧ ∃ e0 ∈ raw, e.confidence = e0.confidence) ∧
    (∀ b1 b2, (0:ℚ) ≤ calculateModelConfidence b1 b2 ∧
      calculateModelConfidence b1 b2 ≤ 1) ∧
    (∀ text trigger etype entities,
      (0:ℚ) ≤ (createEvent text trigger etype entities).confidence ∧
      (createEvent text trigger etype entities).confidence ≤ 1) ∧
    (∀ text entities, ∀ ev ∈ extractEvents text entities,
      (0:ℚ) ≤ ev.confidence ∧ ev.confidence ≤ 1) ∧
    (∀ svo text entities, ∀ r ∈ extractAllRelations svo text entities,
      (0:ℚ) ≤ r.confidence ∧ r.confidence ≤ 1) := by
  have hpost : ∀ raw (seen : List (String × String)), ∀ e ∈ postProcessGo seen raw,
      (1/2 : ℚ) < e.confidence ∧ ∃ e0 ∈ raw, e.confidence = e0.confidence := by
    intro raw
    induction raw with
    | nil =>
      intro seen e he
      simp [postProcessGo] at he
    | cons a rest ih =>
      intro seen e he
      simp only [postProcessGo] at he
      split at he
      · rename_i hcond
        rcases List.mem_cons.mp he with h1 | h1
        · subst h1
          exact ⟨hcond.2, a, List.mem_cons_self a rest, rfl⟩
        · obtain ⟨hgt, e0, he0, heq⟩ := ih _ _ h1
          exact ⟨hgt, e0, List.mem_cons_of_mem a he0, heq⟩
      · obtain ⟨hgt, e0, he0, heq⟩ := ih _ _ he
        exact ⟨hgt, e0, List.mem_cons_of_mem a he0, heq⟩
  have hevent : ∀ (text : List Char) (trigger etype : String) entities,
      (0:ℚ) ≤ (createEvent text trigger etype entities).confidence ∧
      (createEvent text trigger etype entities).confidence ≤ 1 := by
    intro text trigger etype entities
    constructor <;> norm_num [createEvent]
  refine ⟨?_, fun seen raw => hpost raw seen, ?_, hevent, ?_, ?_⟩
  · intro seen raw hraw e he
    obtain ⟨_, e0, he0, heq⟩ := hpost raw seen e he
    rw [heq]
    exact hraw e0 he0
  · intro b1 b2
    have hmin : ∀ x : ℚ, 0 ≤ x → (0:ℚ) ≤ min x 1 ∧ min x 1 ≤ 1 :=
      fun x hx => ⟨le_min hx zero_le_one, min_le_right _ _⟩
    unfold calculateModelConfidence
    apply hmin
    cases b1 <;> cases b2 <;> norm_num
  · intro text entities ev hev
    simp only [extractEvents] at hev
    rw [List.mem_flatMap] at hev
    obtain ⟨p, hp, hev⟩ := hev
    rw [List.mem_map] at hev
    obtain ⟨tr, htr, hev⟩ := hev
    rw [← hev]
    exact hevent text tr p.1 entities
  · intro svo text entities r hr
    unfold extractAllRelations at hr
    rcases List.mem_append.mp hr with h1 | h1
    · rw [List.mem_map] at h1
      obtain ⟨t, ht, h1⟩ := h1
      rw [← h1]
      constructor <;> norm_num
    · have := mem_extractPurchaseRelations h1
      rw [this.2.1]
      constructor <;> norm_num

/-- Witness for C9: a post-processed entity with input confidence 1
keeps a confidence inside the unit interval. -/
theorem extractor_confidences_witness :
    (0:ℚ) ≤ (Entity.mk "Sony" "Organization" 0 4 1).confidence ∧
    (Entity.mk "Sony" "Organization" 0 4 1).confidence ≤ 1 :=
  extractor_confidences_in_unit_range.1 [] [Entity.mk "Sony" "Organization" 0 4 1]
    (fun x hx => by
      rw [List.mem_singleton.mp hx]
      exact ⟨zero_le_one, le_refl 1⟩)
    (Entity.mk "Sony" "Organization" 0 4 1)
    (by
      rw [postProcessGo_singleton_kept _ one_half_lt_one]
      exact List.mem_singleton.mpr rfl)

/-! ## Batch processing (C6) -/

theorem processCsvFrom_length (backend : List Char → Except String AnalysisResult)
    (svo : List Char → List (String × String × String)) :
    ∀ (rows : List (List Char)) (k : Nat),
      (processCsvFrom backend svo k rows).length = rows.length := by
  intro rows
  induction rows with
  | nil => intro k; rfl
  | cons t ts ih =>
    intro k
    rw [processCsvFrom, List.length_cons, List.length_cons, ih]

theorem processCsvFrom_getD (backend : List Char → Except String AnalysisResult)
    (svo : List Char → List (String × String × String)) :
    ∀ (rows : List (List Char)) (k i : Nat), i < rows.length →
      (processCsvFrom backend svo k rows).getD i default =
        processSingleReview backend svo (rows.getD i [])
          ("review_" ++ toString (k + i)) := by
  intro rows
  induction rows with
  | nil =>
    intro k i hi
    simp at hi
  | cons t ts ih =>
    intro k i hi
    cases i with
    | zero => rfl
    | succ j =>
      rw [processCsvFrom]
      have hj : j < ts.length := by
        rw [List.length_cons] at hi
        omega
      have := ih (k + 1) j hj
      rw [show (t :: ts).getD (j + 1) [] = ts.getD j [] from rfl]
      rw [show ((processSingleReview backend svo t ("review_" ++ toString k)) ::
        processCsvFrom backend svo (k + 1) ts).getD (j + 1) default =
        (processCsvFrom backend svo (k + 1) ts).getD j default from rfl]
      rw [this, show k + 1 + j = k + (j + 1) from by omega]

/-- C6 (amended): an exception raised by the NER backend while analyzing
one row is isolated to that row: the batch keeps one output per input
row, each output row depends only on its own text, and the failing row
gets empty entities, products and brands; events, however, are still
extracted from the raw text by trigger matching (they are not empty in
general), because extract_events runs after analyze_review has already
swallowed the failure. -/
theorem ner_failure_isolated
    (backend : List Char → Except String AnalysisResult)
    (svo : List Char → List (String × String × String))
    (rows : List (List Char)) :
    (processCsv backend svo rows).length = rows.length ∧
    (∀ i, i < rows.length →
      (processCsv backend svo rows).getD i default =
        processSingleReview backend svo (rows.getD i [])
          ("review_" ++ toString i)) ∧
    (∀ text rid e, backend text = Except.error e →
      (processSingleReview backend svo text rid).entities = [] ∧
      (processSingleReview backend svo text rid).products = [] ∧
      (processSingleReview backend svo text rid).brands = [] ∧
      (processSingleReview backend svo text rid).events =
        extractEvents text [("products", [])]) := by
  refine ⟨processCsvFrom_length backend svo rows 0, ?_, ?_⟩
  · intro i hi
    have h := processCsvFrom_getD backend svo rows 0 i hi
    rw [Nat.zero_add] at h
    exact h
  · intro text rid e hb
    have hana : analyzeReview backend text = emptyAnalysis := by
      unfold analyzeReview
      by_cases ht : text.isEmpty
      · rw [if_pos ht]
      · rw [if_neg ht, hb]
    simp only [processSingleReview, hana]
    exact ⟨rfl, rfl, rfl, rfl⟩

/-- Witness for C6: a one row batch whose backend always fails still
produces one processed row, and that row has empty entities while its
events come from the raw text. -/
theorem ner_failure_isolated_witness :
    (processCsv (fun _ => Except.error "nerfail") (fun _ => [])
      ["bought phone".toList]).length = 1 ∧
    (processCsv (fun _ => Except.error "nerfail") (fun _ => [])
      ["bought phone".toList]).getD 0 default =
      processSingleReview (fun _ => Except.error "nerfail") (fun _ => [])
        "bought phone".toList ("review_" ++ toString 0) ∧
    (processSingleReview (fun _ => Except.error "nerfail") (fun _ => [])
      "bought phone".toList "rid").entities = [] :=
  ⟨(ner_failure_isolated (fun _ => Except.error "nerfail") (fun _ => [])
      ["bought phone".toList]).1,
   (ner_failure_isolated (fun _ => Except.error "nerfail") (fun _ => [])
      ["bought phone".toList]).2.1 0 (by decide),
   ((ner_failure_isolated (fun _ => Except.error "nerfail") (fun _ => [])
      ["bought phone".toList]).2.2 "bought phone".toList "rid" "nerfail" rfl).1⟩

/-- C6 counterexample: the failing row does not receive an empty event
list; with the purchase trigger bought in the text, the row produced for
an always failing backend has empty entities but one purchase event. -/
theorem failing_row_keeps_raw_text_events :
    (processCsv (fun _ => Except.error "backend failure") (fun _ => [])
      ["bought phone".toList]).map (fun r => r.entities) = [[]] ∧
    (processCsv (fun _ => Except.error "backend failure") (fun _ => [])
      ["bought phone".toList]).map (fun r => r.products) = [[]] ∧
    (processCsv (fun _ => Except.error "backend failure") (fun _ => [])
      ["bought phone".toList]).map (fun r => r.events.map Event.etype) =
      [["purchase"]] := by
  refine ⟨?_, ?_, ?_⟩ <;> decide

/-! ## BM25 scoring (C1, C2, C3, C7) -/

theorem dfQ_pos {corpus : List (List String)} {d : List String} {t : String}
    (hd : d ∈ corpus) (ht : t ∈ d) : dfQ corpus t ≠ 0 := by
  unfold dfQ
  intro h
  rw [List.length_eq_zero] at h
  have hmem : d ∈ corpus.filter (fun d => d.contains t) :=
    List.mem_filter.mpr ⟨hd, by simpa using ht⟩
  rw [h] at hmem
  cases hmem

/-- C1: after fitting on a non-empty corpus, get_scores computes, for
every query and parameters, exactly the reference formula of the
specification: per query token present in the document, the idf of the
BM25 idf formula times tf (k1+1) over tf + k1 (1 - b + b len/avgdl),
and zero for absent tokens.  The statement is parametric in the log
function shared by code and specification. -/
theorem bm25_scores_match_spec (log : ℚ → ℚ) (k1 b : ℚ)
    (corpus : List (List String)) (query : List String)
    (hne : 0 < corpus.length) :
    getScoresQ log k1 b corpus query = specScoresQ log k1 b corpus query := by
  unfold getScoresQ specScoresQ
  apply List.map_congr_left
  intro d hd
  unfold scoreDocQ specScoreDocQ
  congr 1
  apply List.map_congr_left
  intro t ht
  unfold scoreTermQ
  by_cases htf : tfQ d t = 0
  · rw [if_pos htf, if_pos htf]
  · rw [if_neg htf, if_neg htf]
    have hmem : t ∈ d := by
      have : 0 < tfQ d t := Nat.pos_of_ne_zero htf
      unfold tfQ at this
      exact List.count_pos_iff.mp this
    unfold idfQ specIdfQ
    rw [if_neg (dfQ_pos hd hmem)]

/-- Witness for C1 on a one document corpus. -/
theorem bm25_scores_match_spec_witness :
    0 < ([["a"]] : List (List String)).length ∧
    getScoresQ signLog (6/5) (3/4) [["a"]] ["a"] =
      specScoresQ signLog (6/5) (3/4) [["a"]] ["a"] :=
  ⟨by decide,
   bm25_scores_match_spec signLog (6/5) (3/4) [["a"]] ["a"] (by decide)⟩

/-- C3 counterexample: with the negative idf value minus one (the BM25
idf formula does produce negative values whenever a term occurs in more
than half of the documents), the per term score strictly decreases from
term frequency 1 to term frequency 2, with default parameters and a
document of average length, although 1 is at least 1, 2 is at least 1
and k1 is positive. -/
theorem bm25_tf_monotonicity_fails :
    bm25TermScore (-1) 2 (6/5) (3/4) 1 1 < bm25TermScore (-1) 1 (6/5) (3/4) 1 1 ∧
    (1:ℚ) ≤ 1 ∧ (1:ℚ) ≤ 2 ∧ (0:ℚ) < 6/5 := by
  refine ⟨?_, le_refl 1, by norm_num, by norm_num⟩
  norm_num [bm25TermScore]

/-- C3 (amended): the per term BM25 score is monotonically
non-decreasing in the term frequency provided the fixed idf value is
non-negative and the length normalization stays non-negative, as it
does for b between 0 and 1, a non-negative document length and a
positive mean document length. -/
theorem bm25_tf_monotone_nonneg_idf (idf k1 b dl avgdl tf1 tf2 : ℚ)
    (hidf : 0 ≤ idf) (hk1 : 0 < k1) (hb0 : 0 ≤ b) (hb1 : b ≤ 1)
    (hdl : 0 ≤ dl) (havg : 0 < avgdl) (htf1 : 1 ≤ tf1) (h12 : tf1 ≤ tf2) :
    bm25TermScore idf tf1 k1 b dl avgdl ≤ bm25TermScore idf tf2 k1 b dl avgdl := by
  unfold bm25TermScore
  apply mul_le_mul_of_nonneg_left _ hidf
  have hKnn : 0 ≤ k1 * (1 - b + b * (dl / avgdl)) := by
    apply mul_nonneg (le_of_lt hk1)
    have h1 : 0 ≤ 1 - b := by linarith
    have h2 : 0 ≤ b * (dl / avgdl) :=
      mul_nonneg hb0 (div_nonneg hdl (le_of_lt havg))
    linarith
  have hd1 : 0 < tf1 + k1 * (1 - b + b * (dl / avgdl)) := by linarith
  have hd2 : 0 < tf2 + k1 * (1 - b + b * (dl / avgdl)) := by linarith
  rw [div_le_div_iff₀ hd1 hd2]
  have hfac : 0 ≤ (k1 + 1) * (k1 * (1 - b + b * (dl / avgdl))) * (tf2 - tf1) :=
    mul_nonneg (mul_nonneg (by linarith) hKnn) (by linarith)
  nlinarith [hfac]

/-- Witness for C3 at idf 1, unit parameters and term frequencies 1 and
2. -/
theorem bm25_tf_monotone_nonneg_idf_witness :
    (0:ℚ) ≤ 1 ∧ (0:ℚ) < 1 ∧ (0:ℚ) ≤ 1 ∧ (1:ℚ) ≤ 1 ∧ (0:ℚ) ≤ 1 ∧
    (0:ℚ) < 1 ∧ (1:ℚ) ≤ 1 ∧ (1:ℚ) ≤ 2 ∧
    bm25TermScore 1 1 1 1 1 1 ≤ bm25TermScore 1 2 1 1 1 1 :=
  ⟨zero_le_one, zero_lt_one, zero_le_one, le_refl (1:ℚ), zero_le_one,
   zero_lt_one, le_refl (1:ℚ), one_le_two,
   bm25_tf_monotone_nonneg_idf (1:ℚ) (1:ℚ) (1:ℚ) (1:ℚ) (1:ℚ) (1:ℚ) (2:ℚ)
     zero_le_one zero_lt_one zero_le_one (le_refl (1:ℚ)) zero_le_one
     zero_lt_one (le_refl (1:ℚ)) one_le_two⟩

/-! ## Top n retrieval (C2) -/

theorem getTopNQ_shape (scores : List ℚ) (n : Nat) :
    (∀ p ∈ getTopNQ scores n, 0 < p.2 ∧ p.2 = scores.getD p.1 0) ∧
    (getTopNQ scores n).length ≤ n ∧
    List.Pairwise (fun p q : Nat × ℚ =>
      q.2 < p.2 ∨ (p.2 = q.2 ∧ q.1 < p.1)) (getTopNQ scores n) := by
  have hsorted : List.Pairwise (argsortLe scores) (argsortIdx scores) := by
    haveI ht : IsTotal Nat (argsortLe scores) := ⟨by
      intro i j
      unfold argsortLe
      rcases lt_trichotomy (scores.getD i 0) (scores.getD j 0) with h | h | h
      · exact Or.inl (Or.inl h)
      · rcases Nat.le_total i j with hij | hij
        · exact Or.inl (Or.inr ⟨h, hij⟩)
        · exact Or.inr (Or.inr ⟨h.symm, hij⟩)
      · exact Or.inr (Or.inl h)⟩
    haveI htr : IsTrans Nat (argsortLe scores) := ⟨by
      intro a b c hab hbc
      unfold argsortLe at hab hbc ⊢
      rcases hab with h1 | ⟨h1, h1'⟩ <;> rcases hbc with h2 | ⟨h2, h2'⟩
      · exact Or.inl (h1.trans h2)
      · exact Or.inl (h2 ▸ h1)
      · exact Or.inl (h1 ▸ h2)
      · exact Or.inr ⟨h1.trans h2, h1'.trans h2'⟩⟩
    exact List.sorted_insertionSort _ _
  have hnodup : (argsortIdx scores).Nodup :=
    ((List.perm_insertionSort _ _).nodup_iff).mpr (List.nodup_range _)
  have hpair : List.Pairwise
      (fun i j => argsortLe scores i j ∧ i ≠ j) (argsortIdx scores) :=
    hsorted.and hnodup
  have hrev : List.Pairwise
      (fun i j => argsortLe scores j i ∧ j ≠ i) (argsortIdx scores).reverse := by
    rw [List.pairwise_reverse]
    exact hpair
  have htake : List.Pairwise
      (fun i j => argsortLe scores j i ∧ j ≠ i)
      ((argsortIdx scores).reverse.take n) :=
    hrev.sublist (List.take_sublist n _)
  refine ⟨?_, ?_, ?_⟩
  · intro p hp
    unfold getTopNQ at hp
    rw [List.mem_filterMap] at hp
    obtain ⟨i, hi, hp⟩ := hp
    split at hp
    · rename_i hpos
      injection hp with hp
      rw [← hp]
      exact ⟨hpos, rfl⟩
    · cases hp
  · unfold getTopNQ
    exact le_trans (List.length_filterMap_le _ _) (List.length_take_le _ _)
  · unfold getTopNQ
    rw [List.pairwise_filterMap]
    apply htake.imp
    intro i j hij x hx y hy
    split at hx
    · rename_i hposi
      rw [Option.mem_def, Option.some.injEq] at hx
      split at hy
      · rename_i hposj
        rw [Option.mem_def, Option.some.injEq] at hy
        rw [← hx, ← hy]
        rcases hij.1 with h | ⟨heq, hle⟩
        · exact Or.inl h
        · exact Or.inr ⟨heq.symm, Nat.lt_of_le_of_ne hle hij.2⟩
      · cases hy
    · cases hx

/-- C2 (amended): for every built index, query and top_k, get_top_n
returns only pairs whose score is strictly positive (the score being the
BM25 score of the index at the returned document), at most top_k of
them, never an error, sorted by score descending; but ties are broken
by reverse insertion order (the later document first), because the
ascending stable argsort is reversed. -/
theorem bm25_top_n_sorted_positive_bounded (log : ℚ → ℚ) (k1 b : ℚ)
    (corpus : List (List String)) (query : List String) (n : Nat) :
    (∀ p ∈ getTopNQ (getScoresQ log k1 b corpus query) n,
      0 < p.2 ∧ p.2 = (getScoresQ log k1 b corpus query).getD p.1 0) ∧
    (getTopNQ (getScoresQ log k1 b corpus query) n).length ≤ n ∧
    List.Pairwise (fun p q : Nat × ℚ => q.2 < p.2 ∨ (p.2 = q.2 ∧ q.1 < p.1))
      (getTopNQ (getScoresQ log k1 b corpus query) n) :=
  getTopNQ_shape _ n

theorem corpus3_scores :
    getScoresQ signLog (6/5) (3/4) [["a"], ["b"], ["c"]] ["a", "b"] =
      [1, 1, 0] := by
  have havg : avgdlQ [["a"], ["b"], ["c"]] = 1 := by
    norm_num [avgdlQ]
  have hdfa : dfQ [["a"], ["b"], ["c"]] "a" = 1 := by decide
  have hdfb : dfQ [["a"], ["b"], ["c"]] "b" = 1 := by decide
  have hidfa : idfQ signLog [["a"], ["b"], ["c"]] "a" = 1 := by
    unfold idfQ
    rw [hdfa]
    norm_num [signLog]
  have hidfb : idfQ signLog [["a"], ["b"], ["c"]] "b" = 1 := by
    unfold idfQ
    rw [hdfb]
    norm_num [signLog]
  have hta : tfQ ["a"] "a" = 1 := by decide
  have htb : tfQ ["a"] "b" = 0 := by decide
  have hba : tfQ ["b"] "a" = 0 := by decide
  have hbb : tfQ ["b"] "b" = 1 := by decide
  have hca : tfQ ["c"] "a" = 0 := by decide
  have hcb : tfQ ["c"] "b" = 0 := by decide
  simp only [getScoresQ, List.map_cons, List.map_nil, scoreDocQ,
    List.sum_cons, List.sum_nil, scoreTermQ, hta, htb, hba, hbb, hca, hcb,
    hidfa, hidfb, havg]
  norm_num

theorem corpus3_topn :
    getTopNQ (getScoresQ signLog (6/5) (3/4) [["a"], ["b"], ["c"]] ["a", "b"]) 5 =
      [(1, 1), (0, 1)] := by
  rw [corpus3_scores]
  have h12 : ¬ argsortLe [1, 1, 0] 1 2 := by
    unfold argsortLe
    norm_num
  have h02 : ¬ argsortLe [1, 1, 0] 0 2 := by
    unfold argsortLe
    norm_num
  have h01 : argsortLe [1, 1, 0] 0 1 := by
    unfold argsortLe
    norm_num
  have hsort : argsortIdx [1, 1, 0] = [2, 0, 1] := by
    unfold argsortIdx
    rw [show List.range ([1, 1, 0] : List ℚ).length = [0, 1, 2] from by decide]
    simp only [List.insertionSort, List.orderedInsert]
    rw [if_neg h02, if_pos h01]
  unfold getTopNQ
  rw [hsort]
  rw [show ([2, 0, 1] : List Nat).reverse.take 5 = [1, 0, 2] from by decide]
  rw [List.filterMap_cons, List.filterMap_cons, List.filterMap_cons,
    List.filterMap_nil]
  rw [if_pos (by norm_num : (0:ℚ) < ([1, 1, 0] : List ℚ).getD 1 0)]
  rw [if_pos (by norm_num : (0:ℚ) < ([1, 1, 0] : List ℚ).getD 0 0)]
  rw [if_neg (by norm_num : ¬ (0:ℚ) < ([1, 1, 0] : List ℚ).getD 2 0)]
  rfl

/-- Witness for C2 on a three document corpus with a tie: the returned
pair (1, 1) carries a positive score equal to the score array entry of
document 1, and the result length is bounded by top_k. -/
theorem bm25_top_n_sorted_positive_bounded_witness :
    (0 < ((1, (1:ℚ)) : Nat × ℚ).2 ∧ ((1, (1:ℚ)) : Nat × ℚ).2 =
      (getScoresQ signLog (6/5) (3/4) [["a"], ["b"], ["c"]] ["a", "b"]).getD
        ((1, (1:ℚ)) : Nat × ℚ).1 0) ∧
    (getTopNQ (getScoresQ signLog (6/5) (3/4) [["a"], ["b"], ["c"]]
      ["a", "b"]) 5).length ≤ 5 :=
  ⟨(bm25_top_n_sorted_positive_bounded signLog (6/5) (3/4)
      [["a"], ["b"], ["c"]] ["a", "b"] 5).1 (1, 1)
      (by rw [corpus3_topn]; exact List.mem_cons_self _ _),
   (bm25_top_n_sorted_positive_bounded signLog (6/5) (3/4)
      [["a"], ["b"], ["c"]] ["a", "b"] 5).2.1⟩

/-- C2 counterexample: documents 0 and 1 tie with a positive score, and
get_top_n returns document 1 before document 0, so ties are broken by
reverse insertion order, not by original insertion order as claimed. -/
theorem bm25_top_n_reverse_tie_order :
    (getTopNQ (getScoresQ signLog (6/5) (3/4) [["a"], ["b"], ["c"]]
      ["a", "b"]) 5).map Prod.fst = [1, 0] ∧
    (getScoresQ signLog (6/5) (3/4) [["a"], ["b"], ["c"]] ["a", "b"]).getD 0 0 =
      (getScoresQ signLog (6/5) (3/4) [["a"], ["b"], ["c"]] ["a", "b"]).getD 1 0 := by
  rw [corpus3_topn, corpus3_scores]
  exact ⟨rfl, rfl⟩

/-! ## Parameter tuning (C7) -/

theorem foldl_const_of_fix {α β} (f : α → β → α) (l : List β) (a : α)
    (h : ∀ x ∈ l, f a x = a) : l.foldl f a = a := by
  induction l with
  | nil => rfl
  | cons x rest ih =>
    rw [List.foldl_cons, h x (List.mem_cons_self x rest)]
    exact ih (fun y hy => h y (List.mem_cons_of_mem x hy))

theorem gridAvgQ_nil_rels (log : ℚ → ℚ) (k1v bv : ℚ)
    (corpus : List (List String)) (queries : List (List String)) :
    gridAvgQ log k1v bv corpus queries [] = 0 := by
  unfold gridAvgQ
  rw [List.zip_nil_right]
  simp

theorem tuneParametersQ_nil_rels (log : ℚ → ℚ) (k1 b : ℚ)
    (corpus : List (List String)) (queries : List (List String))
    (k1Range bRange : ℚ × ℚ) :
    tuneParametersQ log k1 b corpus queries [] k1Range bRange =
      Except.ok (k1, b) := by
  have houter : (arangeQ k1Range.1 k1Range.2 (1/5)).foldl (fun acc k1v =>
      (arangeQ bRange.1 bRange.2 (1/10)).foldl (fun acc bv =>
        let avg := gridAvgQ log k1v bv corpus queries []
        if acc.1 < avg then (avg, (k1v, bv)) else acc) acc)
      ((0:ℚ), (k1, b)) = ((0:ℚ), (k1, b)) := by
    apply foldl_const_of_fix
    intro k1v _
    apply foldl_const_of_fix
    intro bv _
    show (if ((0:ℚ), (k1, b)).1 < gridAvgQ log k1v bv corpus queries [] then
        (gridAvgQ log k1v bv corpus queries [], (k1v, bv))
      else ((0:ℚ), (k1, b))) = ((0:ℚ), (k1, b))
    rw [gridAvgQ_nil_rels]
    exact if_neg (lt_irrefl 0)
  simp only [tuneParametersQ]
  rw [houter]

/-- C7 (amended): tune_parameters performs no length validation at all:
it zips the two lists, silently truncating to the shorter one, runs the
whole grid search, refits the index with the best parameters found and
returns them, raising no error.  In particular, with an empty relevance
judgment list against any queries the routine completes and returns the
current parameters unchanged, and for every input the routine returns
an ok value, never a configuration error. -/
theorem tune_parameters_no_validation (log : ℚ → ℚ) (k1 b : ℚ)
    (corpus : List (List String)) (queries : List (List String))
    (k1Range bRange : ℚ × ℚ) :
    tuneParametersQ log k1 b corpus queries [] k1Range bRange =
      Except.ok (k1, b) ∧
    (∀ rels, ∃ p, tuneParametersQ log k1 b corpus queries rels k1Range bRange =
      Except.ok p) :=
  ⟨tuneParametersQ_nil_rels log k1 b corpus queries k1Range bRange,
   fun _ => ⟨_, rfl⟩⟩

/-- C7 counterexample: with one query and an empty relevance judgment
list (mismatched lengths), tune_parameters does not fail with a
configuration error: it completes the grid search and returns ok with
the current parameters. -/
theorem tune_parameters_mismatch_no_error :
    ([["x"]] : List (List String)).length ≠ ([] : List (List Nat)).length ∧
    tuneParametersQ signLog (6/5) (3/4) [["a"]] [["x"]] [] (1/2, 3) (0, 1) =
      Except.ok (6/5, 3/4) :=
  ⟨by decide,
   tuneParametersQ_nil_rels signLog (6/5) (3/4) [["a"]] [["x"]] (1/2, 3) (0, 1)⟩

end WebSem
